import Mathlib

/-!
Verification of the streaming text-statistics aggregation engine
(`main.go`): the bounded frequency-median estimator, the Welford variance
accumulator, the duplicate-line tracker and the keyword frequency counter.

Each Go function is shallowly embedded as a Lean function over an explicit
state record.  Go's `[4000]int` frequency array becomes a function
`Nat → Nat`; the `for` loops of `returnMedian` and `nextBucket` become
structural recursion on the fuel `BOUND - index`, so that running out of
fuel while the loop guard still holds corresponds exactly to the Go
runtime's index-out-of-range panic at `frequencyArray[4000]`.
`float32` state is modelled by exact rationals `ℚ` and Go error values by
a dedicated error inductive (the original strings are noted at each
constructor).
-/

/-- Decidable equality of `Except` results, for evaluating the embedded
functions on concrete inputs. -/
instance {ε α : Type} [DecidableEq ε] [DecidableEq α] :
    DecidableEq (Except ε α) := fun a b =>
  match a, b with
  | .ok x, .ok y =>
    if h : x = y then isTrue (by rw [h]) else isFalse fun hh => h (Except.ok.inj hh)
  | .error e, .error f =>
    if h : e = f then isTrue (by rw [h]) else isFalse fun hh => h (Except.error.inj hh)
  | .ok _, .error _ => isFalse fun hh => Except.noConfusion hh
  | .error _, .ok _ => isFalse fun hh => Except.noConfusion hh

namespace TextProc

/-- The histogram capacity: `frequencyArray [4000]int` in `main.go`. -/
def BOUND : Nat := 4000

/-- The error conditions of the median estimator, plus a marker for the
only abnormal outcome its loops could have (an array overrun panic).
* `emptyList` — Go `errors.New("Empty List")` in `returnMedian`;
* `endOfArray` — Go `errors.New("reached end of array")` in `nextBucket`;
* `indexTooLarge` — Go `errors.New("index too large, line is too long")`
  in `AddToMedian`;
* `indexOutOfRange` — the Go runtime panic that would occur if a loop
  reached `frequencyArray[4000]`. -/
inductive MedianError where
  | emptyList
  | endOfArray
  | indexTooLarge
  | indexOutOfRange
deriving DecidableEq

/-- `medianStorageArray` from `main.go` (the mutex is irrelevant to the
sequential semantics).  The Go array `[4000]int` is modelled as a total
function; indices `≥ BOUND` are never read by the embedded loops.
Inserted values are line/token lengths, hence `Nat`. -/
structure MedianStorageArray where
  size : Nat
  frequencyArray : Nat → Nat

/-- `AddToMedian`: reject `num ≥ 4000` with an error before any mutation,
otherwise increment the bucket and the size. -/
def AddToMedian (ms : MedianStorageArray) (num : Nat) :
    Except MedianError MedianStorageArray :=
  if BOUND ≤ num then
    .error .indexTooLarge
  else
    .ok { size := ms.size + 1,
          frequencyArray := fun j =>
            if j = num then ms.frequencyArray j + 1 else ms.frequencyArray j }

/-- The in-place state after a call to `AddToMedian`: on error the Go
method returns before touching any field, so the state is unchanged. -/
def stepMedian (ms : MedianStorageArray) (num : Nat) : MedianStorageArray :=
  match AddToMedian ms num with
  | .ok ms' => ms'
  | .error _ => ms

/-- The zero value of `medianStorageArray`: empty histogram. -/
def initialMedian : MedianStorageArray :=
  { size := 0, frequencyArray := fun _ => 0 }

/-- The estimator state reached by feeding a sequence of values to
`AddToMedian` (rejected values leave the state unchanged, as in Go). -/
def buildMedian (vals : List Nat) : MedianStorageArray :=
  vals.foldl stepMedian initialMedian

/-- The scan loop of `nextBucket`: from `index`, find the next bucket with
a positive count.  `fuel = BOUND - index`; fuel `0` means `index` has
reached the end of the array, where Go returns the
"reached end of array" error. -/
def nextBucketAux (freq : Nat → Nat) : Nat → Nat → Except MedianError Nat
  | _, 0 => .error .endOfArray
  | index, fuel + 1 =>
    if freq index > 0 then .ok index
    else nextBucketAux freq (index + 1) fuel

/-- `nextBucket` from `main.go`: starts scanning at `index + 1`. -/
def nextBucket (index : Nat) (freq : Nat → Nat) : Except MedianError Nat :=
  nextBucketAux freq (index + 1) (BOUND - (index + 1))

/-- The even-size loop of `returnMedian`.  Arguments `fuel i index` with
`fuel = BOUND - index`; `i` is the running prefix sum.  Inside the loop
(`i < desiredPos`) the three Go branches are, in order:
bucket covers position `desiredPos` (`i + f > desiredPos`), bucket ends
before it (`i + f < desiredPos`, advance), bucket boundary lands exactly
on it (`i + f = desiredPos`, average with the next nonzero bucket).
Running out of fuel inside the loop is the Go array-overrun panic. -/
def evenLoopAux (freq : Nat → Nat) (dp : Nat) :
    Nat → Nat → Nat → Except MedianError ℚ
  | 0, i, _ =>
    if i < dp then .error .indexOutOfRange else .ok (-1)
  | fuel + 1, i, index =>
    if i < dp then
      if i + freq index > dp then .ok (index : ℚ)
      else if i + freq index < dp then
        evenLoopAux freq dp fuel (i + freq index) (index + 1)
      else
        match nextBucket index freq with
        | .error e => .error e
        | .ok nextIndex => .ok (((index : ℚ) + (nextIndex : ℚ)) / 2)
    else .ok (-1)

/-- The odd-size loop of `returnMedian`.  The two Go branches inside the
loop: bucket covers `desiredPos` (`i + f > desiredPos`), or advance
(`i + f ≤ desiredPos`). -/
def oddLoopAux (freq : Nat → Nat) (dp : Nat) :
    Nat → Nat → Nat → Except MedianError ℚ
  | 0, i, _ =>
    if i < dp then .error .indexOutOfRange else .ok (-1)
  | fuel + 1, i, index =>
    if i < dp then
      if i + freq index > dp then .ok (index : ℚ)
      else oddLoopAux freq dp fuel (i + freq index) (index + 1)
    else .ok (-1)

/-- `returnMedian` from `main.go`: error on size `0`, else walk the
histogram with `desiredPos = size / 2`, using the even branch when the
size is even and the odd branch otherwise.  The Go `float32` result is
modelled exactly in `ℚ` (all reachable results are small integers or
half-integers, exactly representable in `float32`). -/
def returnMedian (ms : MedianStorageArray) : Except MedianError ℚ :=
  if ms.size = 0 then .error .emptyList
  else
    if ms.size % 2 = 0 then
      evenLoopAux ms.frequencyArray (ms.size / 2) BOUND 0 0
    else
      oddLoopAux ms.frequencyArray (ms.size / 2) BOUND 0 0

/-- Prefix sum of a frequency function: the number of stored values that
are `< k`.  This is the quantity the `returnMedian` loops accumulate. -/
def cumul (freq : Nat → Nat) (k : Nat) : Nat :=
  ∑ j ∈ Finset.range k, freq j

/-- The reference median, written from the spec's words: sort the
multiset; with an odd count return the middle order statistic, with an
even count the average of the two middle order statistics; undefined on
an empty multiset. -/
def referenceMedian (vals : List Nat) : Option ℚ :=
  if vals.length = 0 then none
  else if vals.length % 2 = 1 then
    some (((List.insertionSort (· ≤ ·) vals).getD (vals.length / 2) 0 : ℚ))
  else
    some ((((List.insertionSort (· ≤ ·) vals).getD (vals.length / 2 - 1) 0 : ℚ)
      + ((List.insertionSort (· ≤ ·) vals).getD (vals.length / 2) 0 : ℚ)) / 2)

/-- The error condition of the variance accumulator:
Go `errors.New("Empty List")` in `returnStdDev`. -/
inductive StdDevError where
  | emptyList
deriving DecidableEq

/-- `stdVarianceCalculator` from `main.go`; the three `float32` fields are
modelled by exact rationals. -/
structure StdVarianceCalculator where
  runningMean : ℚ
  runningM2 : ℚ
  iterations : ℚ

/-- `AddValue`: Welford's incremental update.  `iterations` is
incremented first and the new value divides `delta`, exactly as in Go.
It accepts any integer and never fails. -/
def AddValue (svc : StdVarianceCalculator) (x : Int) : StdVarianceCalculator :=
  let iterations := svc.iterations + 1
  let delta := (x : ℚ) - svc.runningMean
  let runningMean := svc.runningMean + delta / iterations
  let delta2 := (x : ℚ) - runningMean
  { runningMean := runningMean,
    runningM2 := svc.runningM2 + delta * delta2,
    iterations := iterations }

/-- `returnStdDev`: error when fewer than two observations, otherwise the
unbiased sample variance `M2 / (iterations - 1)`.  Go finally applies
`math.Sqrt` to this value; since `Real.sqrt` is noncomputable and no
claim depends on the square root itself, the embedded function returns
the radicand (the ok/error outcome is unaffected). -/
def returnStdDev (svc : StdVarianceCalculator) : Except StdDevError ℚ :=
  if svc.iterations < 2 then .error .emptyList
  else .ok (svc.runningM2 / (svc.iterations - 1))

/-- `lineDuplicateMap` from `main.go`: the `syncmap` key set is modelled
as the list of stored keys (always duplicate-free when built from the
empty map), plus the duplicate counter. -/
structure LineDuplicateMap where
  Lines : List String
  numDupes : Nat

/-- `CheckForDuplicate`: `LoadOrStore(line, 1)` reports whether the line
was already present; if so the duplicate counter is incremented,
otherwise the line is stored. -/
def CheckForDuplicate (ldm : LineDuplicateMap) (line : String) : LineDuplicateMap :=
  if line ∈ ldm.Lines then { ldm with numDupes := ldm.numDupes + 1 }
  else { ldm with Lines := line :: ldm.Lines }

/-- `NumDuplicates`: return the counter. -/
def NumDuplicates (ldm : LineDuplicateMap) : Nat :=
  ldm.numDupes

/-- The zero value of `lineDuplicateMap`: empty set, zero duplicates. -/
def initialDupMap : LineDuplicateMap :=
  { Lines := [], numDupes := 0 }

/-- Specification-side count of duplicate events: processing the lines in
order against a set `seen`, a line already seen counts one duplicate and
a new line is added to `seen`. -/
def dupCount : List String → List String → Nat
  | _, [] => 0
  | seen, a :: t =>
    if a ∈ seen then dupCount seen t + 1
    else dupCount (a :: seen) t

/-- `keyWordStorage` from `main.go`: the `syncmap.Map` holds only `int`
values (so the dynamic type assertion in `CheckForKeywords` always
succeeds); it is modelled as a partial map from strings to counts. -/
structure KeyWordStorage where
  Keywords : String → Option Nat

/-- `syncmap.Map.Store`: insert or overwrite one key. -/
def storeKeyword (ks : KeyWordStorage) (k : String) (v : Nat) : KeyWordStorage :=
  ⟨fun w => if w = k then some v else ks.Keywords w⟩

/-- `InitializeKeywords`: scan the vocabulary lines in order, lowercase
each and store it with count `0`. -/
def InitializeKeywords (vocab : List String) : KeyWordStorage :=
  vocab.foldl (fun ks line => storeKeyword ks line.toLower 0) ⟨fun _ => none⟩

/-- `CheckForKeywords`: lowercase the word; only if it is already a key,
store the incremented count (the Go `val.(int)` assertion always holds
because only `int`s are ever stored). -/
def CheckForKeywords (ks : KeyWordStorage) (word : String) : KeyWordStorage :=
  match ks.Keywords word.toLower with
  | some num => storeKeyword ks word.toLower (num + 1)
  | none => ks

/-! ### Prefix sums of the frequency array -/

theorem cumul_zero (freq : Nat → Nat) : cumul freq 0 = 0 := by
  simp [cumul]

theorem cumul_succ (freq : Nat → Nat) (k : Nat) :
    cumul freq (k + 1) = cumul freq k + freq k := by
  simp [cumul, Finset.sum_range_succ]

theorem cumul_mono (freq : Nat → Nat) {a b : Nat} (h : a ≤ b) :
    cumul freq a ≤ cumul freq b := by
  unfold cumul
  exact Finset.sum_le_sum_of_subset (Finset.range_subset.2 h)

/-! ### Exact descriptions of the `returnMedian` loops -/

theorem evenLoopAux_exit (freq : Nat → Nat) (dp fuel i index : Nat)
    (h : ¬ i < dp) : evenLoopAux freq dp fuel i index = .ok (-1) := by
  cases fuel <;> simp [evenLoopAux, h]

theorem oddLoopAux_exit (freq : Nat → Nat) (dp fuel i index : Nat)
    (h : ¬ i < dp) : oddLoopAux freq dp fuel i index = .ok (-1) := by
  cases fuel <;> simp [oddLoopAux, h]

/-- The even-size walk, described by the first bucket `b` whose right
boundary `cumul freq (b+1)` reaches `dp`: a strict crossing returns `b`
itself, an exact landing defers to `nextBucket b`. -/
theorem evenLoopAux_eq (freq : Nat → Nat) (dp b : Nat) (hb : b < BOUND)
    (hmin : ∀ j, j < b → cumul freq (j + 1) < dp)
    (hcross : dp ≤ cumul freq (b + 1)) :
    ∀ fuel index, fuel + index = BOUND → index ≤ b → cumul freq index < dp →
    evenLoopAux freq dp fuel (cumul freq index) index =
      if dp < cumul freq (b + 1) then Except.ok (b : ℚ)
      else
        match nextBucket b freq with
        | .error e => .error e
        | .ok nextIndex => .ok (((b : ℚ) + (nextIndex : ℚ)) / 2) := by
  intro fuel
  induction fuel with
  | zero =>
    intro index hfuel hle _
    omega
  | succ fuel ih =>
    intro index hfuel hle hlt
    have hstep := cumul_succ freq index
    rcases Nat.lt_or_ge index b with hib | hib
    · have h2 : cumul freq (index + 1) < dp := hmin index hib
      have hgt : ¬ cumul freq index + freq index > dp := by omega
      have hlt2 : cumul freq index + freq index < dp := by omega
      simp only [evenLoopAux, if_pos hlt, if_neg hgt, if_pos hlt2]
      have hrw : cumul freq index + freq index = cumul freq (index + 1) := hstep.symm
      rw [hrw]
      exact ih (index + 1) (by omega) (by omega) h2
    · have hieq : index = b := le_antisymm hle hib
      subst hieq
      rcases Nat.lt_or_ge dp (cumul freq (index + 1)) with hgt | hle2
      · have hc : cumul freq index + freq index > dp := by omega
        simp only [evenLoopAux, if_pos hlt, if_pos hc]
        rw [if_pos hgt]
      · have heq : cumul freq (index + 1) = dp := le_antisymm hle2 hcross
        have h1 : ¬ cumul freq index + freq index > dp := by omega
        have h2 : ¬ cumul freq index + freq index < dp := by omega
        simp only [evenLoopAux, if_pos hlt, if_neg h1, if_neg h2]
        rw [if_neg (show ¬ dp < cumul freq (index + 1) by omega)]

/-- The odd-size walk, described by the first bucket `b` whose right
boundary strictly exceeds `dp`: the walk returns `b` when the prefix sum
never lands exactly on `dp` on the way, and falls out of the loop with
`-1` otherwise. -/
theorem oddLoopAux_eq (freq : Nat → Nat) (dp b : Nat) (hb : b < BOUND)
    (hmin : ∀ j, j < b → cumul freq (j + 1) ≤ dp)
    (hcross : dp < cumul freq (b + 1)) :
    ∀ fuel index, fuel + index = BOUND → index ≤ b →
    oddLoopAux freq dp fuel (cumul freq index) index =
      if cumul freq b < dp then Except.ok (b : ℚ) else Except.ok (-1) := by
  intro fuel
  induction fuel with
  | zero =>
    intro index h1 h2
    omega
  | succ fuel ih =>
    intro index hfuel hle
    have hstep := cumul_succ freq index
    by_cases hlt : cumul freq index < dp
    · rcases Nat.lt_or_ge index b with hib | hib
      · have h2 : cumul freq (index + 1) ≤ dp := hmin index hib
        have hgt : ¬ cumul freq index + freq index > dp := by omega
        simp only [oddLoopAux, if_pos hlt, if_neg hgt]
        have hrw : cumul freq index + freq index = cumul freq (index + 1) := hstep.symm
        rw [hrw]
        exact ih (index + 1) (by omega) (by omega)
      · have hieq : index = b := le_antisymm hle hib
        subst hieq
        have hgt : cumul freq index + freq index > dp := by omega
        simp only [oddLoopAux, if_pos hlt, if_pos hgt]
    · have hnb : ¬ cumul freq b < dp := by
        have := cumul_mono freq hle
        omega
      simp only [oddLoopAux, if_neg hlt]
      rw [if_neg hnb]

/-! ### Exact descriptions of the `nextBucket` scan -/

theorem nextBucketAux_ok (freq : Nat → Nat) (y : Nat) (hy : y < BOUND)
    (hfy : 0 < freq y) :
    ∀ fuel start, fuel + start = BOUND → start ≤ y →
      (∀ c, start ≤ c → c < y → freq c = 0) →
      nextBucketAux freq start fuel = .ok y := by
  intro fuel
  induction fuel with
  | zero =>
    intro start h1 h2 _
    omega
  | succ fuel ih =>
    intro start hfuel hle hz
    rcases Nat.lt_or_ge start y with hsy | hsy
    · have h0 : freq start = 0 := hz start le_rfl hsy
      simp only [nextBucketAux]
      rw [if_neg (by omega)]
      exact ih (start + 1) (by omega) (by omega) (fun c hc1 hc2 => hz c (by omega) hc2)
    · have heq : start = y := le_antisymm hle hsy
      subst heq
      simp only [nextBucketAux]
      rw [if_pos hfy]

theorem nextBucketAux_none (freq : Nat → Nat) :
    ∀ fuel start, fuel + start = BOUND →
      (∀ c, start ≤ c → c < BOUND → freq c = 0) →
      nextBucketAux freq start fuel = .error .endOfArray := by
  intro fuel
  induction fuel with
  | zero =>
    intro start _ _
    simp [nextBucketAux]
  | succ fuel ih =>
    intro start hfuel hz
    have h0 : freq start = 0 := hz start le_rfl (by omega)
    simp only [nextBucketAux]
    rw [if_neg (by omega)]
    exact ih (start + 1) (by omega) (fun c hc1 hc2 => hz c (by omega) hc2)

/-- `nextBucket` can only fail with the "reached end of array" error. -/
theorem nextBucketAux_error (freq : Nat → Nat) :
    ∀ fuel start e, nextBucketAux freq start fuel = .error e →
      e = .endOfArray := by
  intro fuel
  induction fuel with
  | zero =>
    intro start e h
    simp only [nextBucketAux] at h
    exact (Except.error.inj h).symm
  | succ fuel ih =>
    intro start e h
    simp only [nextBucketAux] at h
    by_cases hf : freq start > 0
    · rw [if_pos hf] at h
      exact absurd h (by simp)
    · rw [if_neg hf] at h
      exact ih (start + 1) e h

/-! ### The loops never produce the "Empty List" error -/

theorem evenLoopAux_ne_empty (freq : Nat → Nat) (dp : Nat) :
    ∀ fuel i index, evenLoopAux freq dp fuel i index ≠ .error .emptyList := by
  intro fuel
  induction fuel with
  | zero =>
    intro i index
    by_cases h : i < dp <;> simp [evenLoopAux, h]
  | succ fuel ih =>
    intro i index
    by_cases h : i < dp
    · by_cases h1 : i + freq index > dp
      · simp [evenLoopAux, h, h1]
      · by_cases h2 : i + freq index < dp
        · simp only [evenLoopAux, if_pos h, if_neg h1, if_pos h2]
          exact ih _ _
        · simp only [evenLoopAux, if_pos h, if_neg h1, if_neg h2]
          cases hnb : nextBucket index freq with
          | ok v => simp
          | error e =>
            have he : e = .endOfArray := nextBucketAux_error freq _ _ e hnb
            subst he
            intro hc
            exact MedianError.noConfusion (Except.error.inj hc)
    · simp [evenLoopAux, h]

theorem oddLoopAux_ne_empty (freq : Nat → Nat) (dp : Nat) :
    ∀ fuel i index, oddLoopAux freq dp fuel i index ≠ .error .emptyList := by
  intro fuel
  induction fuel with
  | zero =>
    intro i index
    by_cases h : i < dp <;> simp [oddLoopAux, h]
  | succ fuel ih =>
    intro i index
    by_cases h : i < dp
    · by_cases h1 : i + freq index > dp
      · simp [oddLoopAux, h, h1]
      · simp only [oddLoopAux, if_pos h, if_neg h1]
        exact ih _ _
    · simp [oddLoopAux, h]

/-! ### The state built by a sequence of insertions -/

theorem foldl_stepMedian (l : List Nat) :
    ∀ ms : MedianStorageArray, (∀ v ∈ l, v < BOUND) →
      (l.foldl stepMedian ms).size = ms.size + l.length ∧
      ∀ v, (l.foldl stepMedian ms).frequencyArray v =
        ms.frequencyArray v + l.count v := by
  induction l with
  | nil =>
    intro ms _
    simp
  | cons a t ih =>
    intro ms hval
    have ha : a < BOUND := hval a (by simp)
    have hstep : stepMedian ms a =
        { size := ms.size + 1,
          frequencyArray := fun j =>
            if j = a then ms.frequencyArray j + 1 else ms.frequencyArray j } := by
      simp [stepMedian, AddToMedian, Nat.not_le.2 ha]
    have ht := ih (stepMedian ms a) (fun v hv => hval v (by simp [hv]))
    constructor
    · rw [List.foldl_cons]
      rw [ht.1, hstep]
      simp
      omega
    · intro v
      rw [List.foldl_cons, ht.2 v, hstep]
      by_cases hv : v = a
      · subst hv
        rw [List.count_cons]
        simp only [if_pos rfl, beq_self_eq_true, if_true]
        omega
      · simp only [if_neg hv]
        rw [List.count_cons]
        simp [hv, Ne.symm hv]

theorem buildMedian_size (vals : List Nat) (hval : ∀ v ∈ vals, v < BOUND) :
    (buildMedian vals).size = vals.length := by
  have := (foldl_stepMedian vals initialMedian hval).1
  simpa [buildMedian, initialMedian] using this

theorem buildMedian_freq (vals : List Nat) (hval : ∀ v ∈ vals, v < BOUND) :
    ∀ v, (buildMedian vals).frequencyArray v = vals.count v := by
  intro v
  have := (foldl_stepMedian vals initialMedian hval).2 v
  simpa [buildMedian, initialMedian] using this

/-! ### Prefix sums of a count function are below-`k` counts -/

theorem cumul_count (vals : List Nat) (k : Nat) :
    cumul (fun v => vals.count v) k = vals.countP (fun v => decide (v < k)) := by
  induction vals with
  | nil =>
    simp [cumul]
  | cons a t ih =>
    have hfun : ∀ j : Nat, (a :: t).count j = t.count j + if j = a then 1 else 0 := by
      intro j
      rw [List.count_cons]
      by_cases hj : j = a
      · subst hj
        simp
      · simp [hj, Ne.symm hj]
    have ihb : ∑ j ∈ Finset.range k, t.count j =
        t.countP (fun v => decide (v < k)) := by
      have h := ih
      unfold cumul at h
      exact h
    have hstep : ∑ j ∈ Finset.range k, (a :: t).count j
        = (∑ j ∈ Finset.range k, t.count j)
          + ∑ j ∈ Finset.range k, (if j = a then 1 else 0) := by
      rw [← Finset.sum_add_distrib]
      exact Finset.sum_congr rfl (fun j _ => hfun j)
    have hind : (∑ j ∈ Finset.range k, (if j = a then 1 else 0))
        = if a < k then 1 else 0 := by
      rw [Finset.sum_ite_eq' (Finset.range k) a (fun _ => 1)]
      simp [Finset.mem_range]
    show (∑ j ∈ Finset.range k, (a :: t).count j) = _
    rw [hstep, ihb, hind, List.countP_cons]
    simp

/-! ### Order statistics of a sorted list, through below-value counts -/

theorem sorted_getD_bounds (s : List Nat) (hs : s.Sorted (· ≤ ·)) :
    ∀ p, p < s.length →
      s.countP (fun v => decide (v < s.getD p 0)) ≤ p ∧
      p < s.countP (fun v => decide (v ≤ s.getD p 0)) := by
  induction s with
  | nil =>
    intro p hp
    simp at hp
  | cons x t ih =>
    rcases List.sorted_cons.1 hs with ⟨hx, ht⟩
    intro p hp
    cases p with
    | zero =>
      constructor
      · rw [List.getD_cons_zero]
        have h0 : List.countP (fun v => decide (v < x)) (x :: t) = 0 := by
          rw [List.countP_eq_zero]
          intro a hamem
          rcases List.mem_cons.1 hamem with rfl | hat
          · simp
          · simp [Nat.not_lt.2 (hx a hat)]
        omega
      · rw [List.getD_cons_zero, List.countP_cons]
        simp
    | succ p =>
      have hp' : p < t.length := by simpa using hp
      have hmem : t.getD p 0 ∈ t := by
        rw [List.getD_eq_getElem t 0 hp']
        exact List.getElem_mem hp'
      have hxle : x ≤ t.getD p 0 := hx _ hmem
      rcases ih ht p hp' with ⟨ih1, ih2⟩
      constructor
      · rw [List.getD_cons_succ, List.countP_cons]
        have : (if decide (x < t.getD p 0) = true then 1 else 0) ≤ 1 := by
          split <;> omega
        omega
      · rw [List.getD_cons_succ, List.countP_cons]
        simp only [decide_eq_true_eq, if_pos hxle]
        omega

/-- A value is determined by the property that position `p` lies inside
its prefix-sum range. -/
theorem bucket_unique (freq : Nat → Nat) (p v w : Nat)
    (hv1 : cumul freq v ≤ p) (hv2 : p < cumul freq (v + 1))
    (hw1 : cumul freq w ≤ p) (hw2 : p < cumul freq (w + 1)) : v = w := by
  rcases lt_trichotomy v w with h | h | h
  · have := cumul_mono freq (show v + 1 ≤ w by omega)
    omega
  · exact h
  · have := cumul_mono freq (show w + 1 ≤ v by omega)
    omega

/-! ### Bridging the histogram state with the sorted insertion sequence -/

theorem insertionSort_getD_mem (vals : List Nat) (p : Nat) (hp : p < vals.length) :
    (List.insertionSort (· ≤ ·) vals).getD p 0 ∈ vals := by
  have hperm := List.perm_insertionSort (· ≤ ·) vals
  have hlen : (List.insertionSort (· ≤ ·) vals).length = vals.length := hperm.length_eq
  have hmem : (List.insertionSort (· ≤ ·) vals).getD p 0 ∈
      List.insertionSort (· ≤ ·) vals := by
    rw [List.getD_eq_getElem _ 0 (by omega)]
    exact List.getElem_mem _
  exact hperm.mem_iff.1 hmem

/-- The element at sorted position `p` has its prefix-sum range covering
position `p` in the histogram built from the same insertions. -/
theorem getD_cumul_bounds (vals : List Nat) (hval : ∀ v ∈ vals, v < BOUND)
    (p : Nat) (hp : p < vals.length) :
    cumul (buildMedian vals).frequencyArray
      ((List.insertionSort (· ≤ ·) vals).getD p 0) ≤ p ∧
    p < cumul (buildMedian vals).frequencyArray
      ((List.insertionSort (· ≤ ·) vals).getD p 0 + 1) := by
  have hperm := List.perm_insertionSort (· ≤ ·) vals
  have hsort := List.sorted_insertionSort (· ≤ ·) vals
  have hlen : (List.insertionSort (· ≤ ·) vals).length = vals.length := hperm.length_eq
  have hfreq : (buildMedian vals).frequencyArray = fun v => vals.count v :=
    funext (buildMedian_freq vals hval)
  have hcum : ∀ k, cumul (buildMedian vals).frequencyArray k =
      (List.insertionSort (· ≤ ·) vals).countP (fun v => decide (v < k)) := by
    intro k
    rw [hfreq, cumul_count]
    exact (hperm.countP_eq _).symm
  have hb := sorted_getD_bounds (List.insertionSort (· ≤ ·) vals) hsort p (by omega)
  have hle : (List.insertionSort (· ≤ ·) vals).countP
        (fun v => decide (v ≤ (List.insertionSort (· ≤ ·) vals).getD p 0))
      = (List.insertionSort (· ≤ ·) vals).countP
        (fun v => decide (v < (List.insertionSort (· ≤ ·) vals).getD p 0 + 1)) := by
    apply List.countP_congr
    intro a _
    simp [Nat.lt_succ_iff]
  constructor
  · rw [hcum]
    exact hb.1
  · rw [hcum, ← hle]
    exact hb.2

/-- In a sorted list, positions are monotone under `getD`. -/
theorem sorted_getD_le (s : List Nat) (hs : s.Sorted (· ≤ ·)) (p q : Nat)
    (hpq : p ≤ q) (hq : q < s.length) : s.getD p 0 ≤ s.getD q 0 := by
  rcases Nat.eq_or_lt_of_le hpq with heq | hlt
  · rw [heq]
  · have h := hs.rel_get_of_lt (a := ⟨p, by omega⟩) (b := ⟨q, hq⟩)
      (by simpa [Fin.lt_def] using hlt)
    rw [List.getD_eq_getElem s 0 (by omega : p < s.length),
      List.getD_eq_getElem s 0 hq]
    simpa [List.get_eq_getElem] using h

/-- `returnMedian` on an even number of in-range insertions: always the
average of the two middle order statistics. -/
theorem returnMedian_even_formula (vals : List Nat) (hne : vals ≠ [])
    (hval : ∀ v ∈ vals, v < BOUND) (heven : vals.length % 2 = 0) :
    returnMedian (buildMedian vals) =
      Except.ok ((((List.insertionSort (· ≤ ·) vals).getD (vals.length / 2 - 1) 0 : ℚ)
        + ((List.insertionSort (· ≤ ·) vals).getD (vals.length / 2) 0 : ℚ)) / 2) := by
  have hn0 : vals.length ≠ 0 := by
    intro h
    exact hne (List.eq_nil_of_length_eq_zero h)
  have hdp1 : 1 ≤ vals.length / 2 := by omega
  have hdpn : vals.length / 2 < vals.length := by omega
  have hx := getD_cumul_bounds vals hval (vals.length / 2 - 1) (by omega)
  have hy := getD_cumul_bounds vals hval (vals.length / 2) (by omega)
  have hxB : (List.insertionSort (· ≤ ·) vals).getD (vals.length / 2 - 1) 0 < BOUND :=
    hval _ (insertionSort_getD_mem vals _ (by omega))
  have hyB : (List.insertionSort (· ≤ ·) vals).getD (vals.length / 2) 0 < BOUND :=
    hval _ (insertionSort_getD_mem vals _ (by omega))
  set freq := (buildMedian vals).frequencyArray with hfreqdef
  set x := (List.insertionSort (· ≤ ·) vals).getD (vals.length / 2 - 1) 0 with hxdef
  set y := (List.insertionSort (· ≤ ·) vals).getD (vals.length / 2) 0 with hydef
  have hmin : ∀ j, j < x → cumul freq (j + 1) < vals.length / 2 := by
    intro j hj
    have := cumul_mono freq (show j + 1 ≤ x by omega)
    omega
  have hcross : vals.length / 2 ≤ cumul freq (x + 1) := by omega
  have hsize : (buildMedian vals).size = vals.length := buildMedian_size vals hval
  have hrm : returnMedian (buildMedian vals) =
      evenLoopAux freq (vals.length / 2) BOUND 0 0 := by
    unfold returnMedian
    rw [hsize, if_neg hn0, if_pos heven]
  have heq := evenLoopAux_eq freq (vals.length / 2) x hxB hmin hcross BOUND 0
    (by simp) (by omega) (by rw [cumul_zero]; omega)
  rw [cumul_zero] at heq
  rw [hrm, heq]
  by_cases hgt : vals.length / 2 < cumul freq (x + 1)
  · rw [if_pos hgt]
    have hxy : x = y :=
      bucket_unique freq (vals.length / 2) x y (by omega) hgt hy.1 hy.2
    rw [← hxy]
    congr 1
    ring
  · rw [if_neg hgt]
    have hxeq : cumul freq (x + 1) = vals.length / 2 := by omega
    have hxy : x < y := by
      by_contra hyx
      push_neg at hyx
      have := cumul_mono freq (show y + 1 ≤ x + 1 by omega)
      omega
    have hfy : 0 < freq y := by
      have := cumul_succ freq y
      omega
    have hzero : ∀ c, x + 1 ≤ c → c < y → freq c = 0 := by
      intro c h1 h2
      have ha := cumul_mono freq (show x + 1 ≤ c from h1)
      have hb2 := cumul_mono freq (show c + 1 ≤ y by omega)
      have hc := cumul_succ freq c
      omega
    have hnb : nextBucket x freq = .ok y := by
      unfold nextBucket
      exact nextBucketAux_ok freq y hyB hfy (BOUND - (x + 1)) (x + 1)
        (by omega) (by omega) hzero
    rw [hnb]

/-- `returnMedian` on an odd number (at least 3) of in-range insertions:
the middle order statistic when it is duplicated at the previous sorted
position, and the sentinel `-1` with a nil error otherwise. -/
theorem returnMedian_odd_formula (vals : List Nat) (hval : ∀ v ∈ vals, v < BOUND)
    (hodd : vals.length % 2 = 1) (h2 : 2 ≤ vals.length) :
    returnMedian (buildMedian vals) =
      if (List.insertionSort (· ≤ ·) vals).getD (vals.length / 2 - 1) 0
          = (List.insertionSort (· ≤ ·) vals).getD (vals.length / 2) 0
      then Except.ok (((List.insertionSort (· ≤ ·) vals).getD (vals.length / 2) 0 : ℚ))
      else Except.ok (-1) := by
  have hn0 : vals.length ≠ 0 := by omega
  have hdp1 : 1 ≤ vals.length / 2 := by omega
  have hdpn : vals.length / 2 < vals.length := by omega
  have hx := getD_cumul_bounds vals hval (vals.length / 2 - 1) (by omega)
  have hy := getD_cumul_bounds vals hval (vals.length / 2) (by omega)
  have hyB : (List.insertionSort (· ≤ ·) vals).getD (vals.length / 2) 0 < BOUND :=
    hval _ (insertionSort_getD_mem vals _ (by omega))
  set freq := (buildMedian vals).frequencyArray with hfreqdef
  set x := (List.insertionSort (· ≤ ·) vals).getD (vals.length / 2 - 1) 0 with hxdef
  set y := (List.insertionSort (· ≤ ·) vals).getD (vals.length / 2) 0 with hydef
  have hmin : ∀ j, j < y → cumul freq (j + 1) ≤ vals.length / 2 := by
    intro j hj
    have := cumul_mono freq (show j + 1 ≤ y by omega)
    omega
  have hsize : (buildMedian vals).size = vals.length := buildMedian_size vals hval
  have hodd2 : ¬ vals.length % 2 = 0 := by omega
  have hrm : returnMedian (buildMedian vals) =
      oddLoopAux freq (vals.length / 2) BOUND 0 0 := by
    unfold returnMedian
    rw [hsize, if_neg hn0, if_neg hodd2]
  have heq := oddLoopAux_eq freq (vals.length / 2) y hyB hmin hy.2 BOUND 0
    (by simp) (by omega)
  rw [cumul_zero] at heq
  rw [hrm, heq]
  by_cases hxy : x = y
  · rw [if_pos hxy]
    rw [hxy] at hx
    rw [if_pos (show cumul freq y < vals.length / 2 by omega)]
  · rw [if_neg hxy]
    have hxley : x ≤ y := by
      rw [hxdef, hydef]
      exact sorted_getD_le (List.insertionSort (· ≤ ·) vals)
        (List.sorted_insertionSort (· ≤ ·) vals) _ _ (by omega)
        (by rw [(List.perm_insertionSort (· ≤ ·) vals).length_eq]; omega)
    have hxlty : x < y := by omega
    have hcy : cumul freq y = vals.length / 2 := by
      have := cumul_mono freq (show x + 1 ≤ y from hxlty)
      omega
    rw [if_neg (show ¬ cumul freq y < vals.length / 2 by omega)]

/-- `returnMedian` after a single in-range insertion falls straight out of
the odd loop and returns `-1` with a nil error. -/
theorem returnMedian_singleton (vals : List Nat) (hval : ∀ v ∈ vals, v < BOUND)
    (h1 : vals.length = 1) :
    returnMedian (buildMedian vals) = Except.ok (-1) := by
  have hsize : (buildMedian vals).size = 1 := by
    rw [buildMedian_size vals hval, h1]
  unfold returnMedian
  rw [hsize]
  norm_num
  exact oddLoopAux_exit _ _ _ _ _ (by omega)

/-! ### `returnMedian` on consistent states: no panic, and "Empty List"
only when empty -/

theorem returnMedian_ne_empty (ms : MedianStorageArray) (h1 : 1 ≤ ms.size) :
    returnMedian ms ≠ Except.error MedianError.emptyList := by
  unfold returnMedian
  rw [if_neg (by omega : ¬ ms.size = 0)]
  by_cases he : ms.size % 2 = 0
  · rw [if_pos he]
    exact evenLoopAux_ne_empty _ _ _ _ _
  · rw [if_neg he]
    exact oddLoopAux_ne_empty _ _ _ _ _

/-- On any state whose frequency array sums to `size` (every state
reachable through `AddToMedian`), the `returnMedian` walk reaches one of
the `return` statements: it can never overrun the array. -/
theorem returnMedian_consistent_no_panic (ms : MedianStorageArray)
    (hsum : cumul ms.frequencyArray BOUND = ms.size) :
    returnMedian ms ≠ Except.error MedianError.indexOutOfRange := by
  unfold returnMedian
  by_cases h0 : ms.size = 0
  · rw [if_pos h0]
    simp
  · rw [if_neg h0]
    have hBw : BOUND - 1 + 1 = BOUND := by norm_num [BOUND]
    by_cases he : ms.size % 2 = 0
    · rw [if_pos he]
      have hdp1 : 1 ≤ ms.size / 2 := by omega
      have hex : ∃ k, ms.size / 2 ≤ cumul ms.frequencyArray (k + 1) := by
        refine ⟨BOUND - 1, ?_⟩
        rw [hBw, hsum]
        omega
      have hb : ms.size / 2 ≤ cumul ms.frequencyArray (Nat.find hex + 1) :=
        Nat.find_spec hex
      have hmin : ∀ j, j < Nat.find hex →
          cumul ms.frequencyArray (j + 1) < ms.size / 2 := by
        intro j hj
        have := Nat.find_min hex hj
        omega
      have hbB : Nat.find hex < BOUND := by
        have : Nat.find hex ≤ BOUND - 1 :=
          Nat.find_min' hex (by rw [hBw, hsum]; omega)
        omega
      have heq := evenLoopAux_eq ms.frequencyArray (ms.size / 2) (Nat.find hex)
        hbB hmin hb BOUND 0 (by simp) (by omega) (by rw [cumul_zero]; omega)
      rw [cumul_zero] at heq
      rw [heq]
      by_cases hgt : ms.size / 2 < cumul ms.frequencyArray (Nat.find hex + 1)
      · rw [if_pos hgt]
        simp
      · rw [if_neg hgt]
        cases hnb : nextBucket (Nat.find hex) ms.frequencyArray with
        | ok v => simp
        | error e =>
          have he2 : e = .endOfArray := nextBucketAux_error _ _ _ e hnb
          subst he2
          intro hc
          exact MedianError.noConfusion (Except.error.inj hc)
    · rw [if_neg he]
      by_cases hdp0 : ms.size / 2 = 0
      · rw [oddLoopAux_exit _ _ _ _ _ (by omega)]
        simp
      · have hex : ∃ k, ms.size / 2 < cumul ms.frequencyArray (k + 1) := by
          refine ⟨BOUND - 1, ?_⟩
          rw [hBw, hsum]
          omega
        have hb : ms.size / 2 < cumul ms.frequencyArray (Nat.find hex + 1) :=
          Nat.find_spec hex
        have hmin : ∀ j, j < Nat.find hex →
            cumul ms.frequencyArray (j + 1) ≤ ms.size / 2 := by
          intro j hj
          have := Nat.find_min hex hj
          omega
        have hbB : Nat.find hex < BOUND := by
          have : Nat.find hex ≤ BOUND - 1 :=
            Nat.find_min' hex (by rw [hBw, hsum]; omega)
          omega
        have heq := oddLoopAux_eq ms.frequencyArray (ms.size / 2) (Nat.find hex)
          hbB hmin hb BOUND 0 (by simp) (by omega)
        rw [cumul_zero] at heq
        rw [heq]
        by_cases hc : cumul ms.frequencyArray (Nat.find hex) < ms.size / 2
        · rw [if_pos hc]
          simp
        · rw [if_neg hc]
          simp

/-! ### The duplicate tracker counts length minus distinct -/

theorem foldl_dup (l : List String) :
    ∀ st : LineDuplicateMap,
      (l.foldl CheckForDuplicate st).numDupes = st.numDupes + dupCount st.Lines l := by
  induction l with
  | nil =>
    intro st
    simp [dupCount]
  | cons a t ih =>
    intro st
    rw [List.foldl_cons]
    by_cases ha : a ∈ st.Lines
    · have hstep : CheckForDuplicate st a = { st with numDupes := st.numDupes + 1 } := by
        simp [CheckForDuplicate, ha]
      rw [hstep, ih]
      simp only [dupCount, if_pos ha]
      omega
    · have hstep : CheckForDuplicate st a = { st with Lines := a :: st.Lines } := by
        simp [CheckForDuplicate, ha]
      rw [hstep, ih]
      simp only [dupCount, if_neg ha]

theorem filter_length_erase {α : Type} [DecidableEq α] (l : List α)
    (a : α) (ha : a ∈ l) (p : α → Bool) (hpa : p a = true) :
    (l.filter p).length = ((l.erase a).filter p).length + 1 := by
  have hperm : l.Perm (a :: l.erase a) := List.perm_cons_erase ha
  rw [(hperm.filter p).length_eq]
  simp [List.filter_cons, hpa]

theorem dupCount_add (l : List String) :
    ∀ seen, dupCount seen l
      + (l.dedup.filter (fun x => decide (x ∉ seen))).length = l.length := by
  induction l with
  | nil =>
    intro seen
    simp [dupCount]
  | cons a t ih =>
    intro seen
    by_cases ha : a ∈ seen
    · rw [show dupCount seen (a :: t) = dupCount seen t + 1 by
        simp [dupCount, if_pos ha]]
      by_cases hat : a ∈ t
      · rw [List.dedup_cons_of_mem hat]
        have h := ih seen
        simp only [List.length_cons]
        omega
      · rw [List.dedup_cons_of_not_mem hat, List.filter_cons]
        rw [if_neg (by simp [ha])]
        have h := ih seen
        simp only [List.length_cons]
        omega
    · rw [show dupCount seen (a :: t) = dupCount (a :: seen) t by
        simp [dupCount, if_neg ha]]
      have iha := ih (a :: seen)
      by_cases hat : a ∈ t
      · rw [List.dedup_cons_of_mem hat]
        have hkey : (t.dedup.filter (fun x => decide (x ∉ seen))).length
            = (t.dedup.filter (fun x => decide (x ∉ a :: seen))).length + 1 := by
          have hmem : a ∈ t.dedup := List.mem_dedup.2 hat
          have hnd := List.nodup_dedup t
          have h1 := filter_length_erase t.dedup a
            (p := fun x => decide (x ∉ seen)) hmem (by simp [ha])
          have h2 : (t.dedup.erase a).filter (fun x => decide (x ∉ seen))
              = t.dedup.filter (fun x => decide (x ∉ a :: seen)) := by
            rw [hnd.erase_eq_filter a, List.filter_filter]
            apply List.filter_congr
            intro x hx
            by_cases hxa : x = a
            · subst hxa
              simp [ha]
            · simp [hxa]
          rw [h2] at h1
          omega
        simp only [List.length_cons]
        omega
      · rw [List.dedup_cons_of_not_mem hat, List.filter_cons]
        rw [if_pos (by simp [ha])]
        have h2 : t.dedup.filter (fun x => decide (x ∉ seen))
            = t.dedup.filter (fun x => decide (x ∉ a :: seen)) := by
          apply List.filter_congr
          intro x hx
          have hxa : x ≠ a := by
            intro h
            subst h
            exact hat (List.mem_dedup.1 hx)
          simp [hxa]
        simp only [List.length_cons, h2]
        omega

/-! ### The keyword counter: seeded keys only -/

theorem initializeKeywords_spec (vocab : List String) (w : String) :
    (InitializeKeywords vocab).Keywords w =
      if w ∈ vocab.map String.toLower then some 0 else none := by
  suffices h : ∀ (l : List String) (ks : KeyWordStorage) (w : String),
      (l.foldl (fun ks line => storeKeyword ks line.toLower 0) ks).Keywords w =
        if w ∈ l.map String.toLower then some 0 else ks.Keywords w by
    exact h vocab ⟨fun _ => none⟩ w
  intro l
  induction l with
  | nil =>
    intro ks w
    simp
  | cons a t ih =>
    intro ks w
    rw [List.foldl_cons, ih]
    by_cases hw : w ∈ t.map String.toLower
    · rw [if_pos hw, if_pos (by simp [List.map_cons]; right; simpa using hw)]
    · rw [if_neg hw]
      by_cases hwa : w = a.toLower
      · subst hwa
        simp [storeKeyword, List.map_cons]
      · simp only [storeKeyword, if_neg hwa]
        rw [if_neg (by simp [List.map_cons]; exact ⟨hwa, by simpa using hw⟩)]

/-- One observation never changes which keys exist. -/
theorem checkForKeywords_isSome (ks : KeyWordStorage) (t w : String) :
    ((CheckForKeywords ks t).Keywords w).isSome = (ks.Keywords w).isSome := by
  unfold CheckForKeywords
  cases h : ks.Keywords t.toLower with
  | none => rfl
  | some n =>
    simp only [storeKeyword]
    by_cases hw : w = t.toLower
    · subst hw
      simp [h]
    · simp [hw]

theorem foldl_checkForKeywords_isSome (ts : List String) :
    ∀ (ks : KeyWordStorage) (w : String),
      ((ts.foldl CheckForKeywords ks).Keywords w).isSome = (ks.Keywords w).isSome := by
  induction ts with
  | nil =>
    intro ks w
    rfl
  | cons a t ih =>
    intro ks w
    rw [List.foldl_cons, ih, checkForKeywords_isSome]

/-- A token whose lowercase form is not a key is a no-op. -/
theorem checkForKeywords_absent (ks : KeyWordStorage) (t : String)
    (h : ks.Keywords t.toLower = none) : CheckForKeywords ks t = ks := by
  simp [CheckForKeywords, h]

/-! ### Rejected insertions do not affect the built state -/

theorem buildMedian_filter (vals : List Nat) :
    buildMedian vals = buildMedian (vals.filter (fun v => decide (v < BOUND))) := by
  suffices h : ∀ (l : List Nat) (ms : MedianStorageArray),
      l.foldl stepMedian ms =
        (l.filter (fun v => decide (v < BOUND))).foldl stepMedian ms from
    h vals initialMedian
  intro l
  induction l with
  | nil =>
    intro ms
    rfl
  | cons a t ih =>
    intro ms
    rw [List.foldl_cons, List.filter_cons]
    by_cases ha : a < BOUND
    · rw [if_pos (by simpa using ha), List.foldl_cons]
      exact ih (stepMedian ms a)
    · rw [if_neg (by simpa using ha)]
      have hstep : stepMedian ms a = ms := by
        simp [stepMedian, AddToMedian, Nat.not_lt.1 ha]
      rw [hstep]
      exact ih ms

/-! ## The claims -/

/-- C1 (amended).  The claim as stated — `returnMedian` always returns the
reference median of the inserted multiset — is false (see
`C1_counterexample`).  What the code actually computes: for an **even**
number of in-range insertions the result is the reference median (the
average of the two middle order statistics); for an **odd** number it is
the middle order statistic exactly when that value also occupies sorted
position `size/2 - 1` (in particular never for a one-element sequence),
and otherwise the walk falls out of its loop and returns `-1` with a nil
error. -/
theorem C1_returnMedian_reference_amended (vals : List Nat) (hne : vals ≠ [])
    (hval : ∀ v ∈ vals, v < BOUND) :
    returnMedian (buildMedian vals) =
      if vals.length % 2 = 0
          ∨ (1 ≤ vals.length / 2 ∧
            (List.insertionSort (· ≤ ·) vals).getD (vals.length / 2 - 1) 0
              = (List.insertionSort (· ≤ ·) vals).getD (vals.length / 2) 0)
      then Except.ok ((referenceMedian vals).getD 0)
      else Except.ok (-1) := by
  have hn0 : vals.length ≠ 0 := fun h => hne (List.eq_nil_of_length_eq_zero h)
  by_cases he : vals.length % 2 = 0
  · rw [if_pos (Or.inl he)]
    rw [returnMedian_even_formula vals hne hval he]
    unfold referenceMedian
    rw [if_neg hn0, if_neg (by omega)]
    simp
  · by_cases h1 : vals.length = 1
    · rw [returnMedian_singleton vals hval h1, h1]
      rw [if_neg (by norm_num)]
    · have h2 : 2 ≤ vals.length := by omega
      have hodd : vals.length % 2 = 1 := by omega
      rw [returnMedian_odd_formula vals hval hodd h2]
      unfold referenceMedian
      rw [if_neg hn0, if_pos hodd]
      by_cases hxy : (List.insertionSort (· ≤ ·) vals).getD (vals.length / 2 - 1) 0
          = (List.insertionSort (· ≤ ·) vals).getD (vals.length / 2) 0
      · rw [if_pos hxy, if_pos (Or.inr ⟨by omega, hxy⟩)]
        simp
      · rw [if_neg hxy, if_neg (by rintro (h | ⟨_, h⟩) <;> [omega; exact hxy h])]

/-- C1 witness: two insertions (even count) give the reference median. -/
theorem C1_witness :
    returnMedian (buildMedian [1, 2]) = Except.ok ((3 : ℚ) / 2) := by
  rw [C1_returnMedian_reference_amended [1, 2] (by decide) (by decide)]
  norm_num [referenceMedian, List.insertionSort, List.orderedInsert]

/-- C1 counterexample: inserting the single value `0`, the code returns
`-1` (with a nil error) while the reference median of `{0}` is `0`. -/
theorem C1_counterexample :
    returnMedian (buildMedian [0]) = Except.ok (-1) ∧
    referenceMedian [0] = some 0 ∧ (-1 : ℚ) ≠ 0 := by
  refine ⟨rfl, by norm_num [referenceMedian, List.insertionSort, List.orderedInsert],
    by norm_num⟩

/-- C2 (amended).  Inserting a value `≥ 4000` fails with the out-of-range
error and leaves the estimator state (size and every frequency counter)
unchanged, so the state — and hence any subsequent `returnMedian` result —
is exactly the one produced by the accepted insertions alone.  The
original claim's stronger conclusion, that the subsequent result equals
the *reference median* of the valid insertions, fails for the independent
reason shown in `C2_counterexample` (the odd-size walk, cf. C1). -/
theorem C2_AddToMedian_reject_amended (ms : MedianStorageArray) (v : Nat)
    (hv : 4000 ≤ v) :
    AddToMedian ms v = Except.error MedianError.indexTooLarge ∧
    stepMedian ms v = ms ∧
    (∀ vals : List Nat,
      buildMedian vals = buildMedian (vals.filter (fun x => decide (x < BOUND)))) := by
  have hB : BOUND ≤ v := by
    simpa [BOUND] using hv
  refine ⟨?_, ?_, fun vals => buildMedian_filter vals⟩
  · simp [AddToMedian, hB]
  · simp [stepMedian, AddToMedian, hB]

/-- C2 witness. -/
theorem C2_witness :
    4000 ≤ 4000 ∧
    AddToMedian (buildMedian [0]) 4000 = Except.error MedianError.indexTooLarge :=
  ⟨le_rfl, (C2_AddToMedian_reject_amended (buildMedian [0]) 4000 le_rfl).1⟩

/-- C2 counterexample: after the accepted insertion `0`, the rejected
insertion `4000` indeed errors and leaves the state unchanged, yet the
subsequent `returnMedian` yields `-1`, not the reference median `0` of
the valid insertions. -/
theorem C2_counterexample :
    AddToMedian (buildMedian [0]) 4000 = Except.error MedianError.indexTooLarge ∧
    stepMedian (buildMedian [0]) 4000 = buildMedian [0] ∧
    returnMedian (stepMedian (buildMedian [0]) 4000) = Except.ok (-1) ∧
    referenceMedian [0] = some 0 ∧ (-1 : ℚ) ≠ 0 := by
  refine ⟨rfl, rfl, rfl,
    by norm_num [referenceMedian, List.insertionSort, List.orderedInsert],
    by norm_num⟩

/-- C3: over any sequence of observed lines, `NumDuplicates` equals the
total number of lines minus the number of distinct lines (exact string
equality); in particular the first occurrence of a line is never counted. -/
theorem C3_NumDuplicates (lines : List String) :
    NumDuplicates (lines.foldl CheckForDuplicate initialDupMap)
      = lines.length - lines.dedup.length := by
  have h1 := foldl_dup lines initialDupMap
  have h2 := dupCount_add lines []
  have h3 : lines.dedup.filter (fun x => decide (x ∉ ([] : List String)))
      = lines.dedup := by
    apply List.filter_eq_self.2
    intro a _
    simp
  rw [h3] at h2
  simp only [NumDuplicates, initialDupMap] at h1 ⊢
  omega

/-- C5: querying the variance accumulator with fewer than two
observations, or the median estimator with zero observations, fails with
the distinguishable "Empty List" condition (not a silent value or a
crash), and with enough observations neither query fails with it. -/
theorem C5_insufficient_data (svc : StdVarianceCalculator)
    (ms : MedianStorageArray) :
    (svc.iterations < 2 → returnStdDev svc = Except.error StdDevError.emptyList) ∧
    (2 ≤ svc.iterations → ∃ v, returnStdDev svc = Except.ok v) ∧
    (ms.size = 0 → returnMedian ms = Except.error MedianError.emptyList) ∧
    (1 ≤ ms.size → returnMedian ms ≠ Except.error MedianError.emptyList) := by
  refine ⟨fun h => ?_, fun h => ?_, fun h => ?_, fun h => returnMedian_ne_empty ms h⟩
  · simp [returnStdDev, h]
  · exact ⟨svc.runningM2 / (svc.iterations - 1), by simp [returnStdDev, not_lt.2 h]⟩
  · simp [returnMedian, h]

/-- C5 witness: the empty accumulators produce the "Empty List" error. -/
theorem C5_witness :
    (0 : ℚ) < 2 ∧
    returnStdDev ⟨0, 0, 0⟩ = Except.error StdDevError.emptyList ∧
    returnMedian initialMedian = Except.error MedianError.emptyList := by
  refine ⟨by norm_num, ?_, ?_⟩
  · exact (C5_insufficient_data ⟨0, 0, 0⟩ initialMedian).1 (by norm_num)
  · exact (C5_insufficient_data ⟨0, 0, 0⟩ initialMedian).2.2.1 rfl

/-- C6: on an even-size state whose prefix sum lands exactly on `size/2`
at bucket `b`, `returnMedian` fails with the distinct "reached end of
array" error when no later bucket is positive (no crash, and not the
"Empty List" error), and returns the average of `b` with the next
positive bucket's index when one exists. -/
theorem C6_even_boundary (ms : MedianStorageArray) (b : Nat)
    (heven : ms.size % 2 = 0) (hne : ms.size ≠ 0) (hbB : b < BOUND)
    (hmin : ∀ j, j < b → cumul ms.frequencyArray (j + 1) < ms.size / 2)
    (hexact : cumul ms.frequencyArray (b + 1) = ms.size / 2) :
    ((∀ c, b < c → c < BOUND → ms.frequencyArray c = 0) →
        returnMedian ms = Except.error MedianError.endOfArray) ∧
    (∀ c, b < c → c < BOUND → 0 < ms.frequencyArray c →
        (∀ c', b < c' → c' < c → ms.frequencyArray c' = 0) →
        returnMedian ms = Except.ok (((b : ℚ) + (c : ℚ)) / 2)) ∧
    MedianError.endOfArray ≠ MedianError.emptyList := by
  have hdp1 : 1 ≤ ms.size / 2 := by omega
  have hrm : returnMedian ms =
      evenLoopAux ms.frequencyArray (ms.size / 2) BOUND 0 0 := by
    unfold returnMedian
    rw [if_neg hne, if_pos heven]
  have heq := evenLoopAux_eq ms.frequencyArray (ms.size / 2) b hbB hmin
    (by omega) BOUND 0 (by simp) (by omega) (by rw [cumul_zero]; omega)
  rw [cumul_zero] at heq
  rw [if_neg (by omega : ¬ ms.size / 2 < cumul ms.frequencyArray (b + 1))] at heq
  refine ⟨fun hnone => ?_, fun c hbc hcB hc hzero => ?_, by decide⟩
  · rw [hrm, heq]
    have hnb : nextBucket b ms.frequencyArray = .error .endOfArray := by
      unfold nextBucket
      exact nextBucketAux_none _ _ _ (by omega)
        (fun d h1 h2 => hnone d (by omega) h2)
    rw [hnb]
  · rw [hrm, heq]
    have hnb : nextBucket b ms.frequencyArray = .ok c := by
      unfold nextBucket
      exact nextBucketAux_ok _ c hcB hc _ _ (by omega) (by omega)
        (fun d h1 h2 => hzero d (by omega) h2)
    rw [hnb]

/-- C6 witness: size `2` with the single count in bucket `0` and nothing
after it gives the "reached end of array" error. -/
theorem C6_witness :
    (2 : Nat) % 2 = 0 ∧
    returnMedian ⟨2, fun j => if j = 0 then 1 else 0⟩
      = Except.error MedianError.endOfArray := by
  refine ⟨rfl, ?_⟩
  refine (C6_even_boundary ⟨2, fun j => if j = 0 then 1 else 0⟩ 0 rfl
    (by norm_num) (by norm_num [BOUND])
    (fun j hj => absurd hj (Nat.not_lt_zero j)) ?_).1 ?_
  · show cumul (fun j => if j = 0 then 1 else 0) 1 = 2 / 2
    simp [cumul]
  · intro c h0 hB
    show (if c = 0 then 1 else 0) = 0
    rw [if_neg (by omega)]

/-- C7: a token's count can only be incremented when its lowercased form
is a key seeded at initialization; tokens outside the vocabulary are
no-ops, they never gain an entry, and the counting path never creates or
removes a key. -/
theorem C7_keywords (vocab ts : List String) (w : String)
    (hw : w ∉ vocab.map String.toLower) :
    (ts.foldl CheckForKeywords (InitializeKeywords vocab)).Keywords w = none ∧
    (∀ w' : String,
      ((ts.foldl CheckForKeywords (InitializeKeywords vocab)).Keywords w').isSome
        ↔ w' ∈ vocab.map String.toLower) ∧
    (∀ (ks : KeyWordStorage) (t : String),
      ks.Keywords t.toLower = none → CheckForKeywords ks t = ks) := by
  have hsome : ∀ w' : String,
      ((ts.foldl CheckForKeywords (InitializeKeywords vocab)).Keywords w').isSome
        = ((InitializeKeywords vocab).Keywords w').isSome :=
    fun w' => foldl_checkForKeywords_isSome ts _ w'
  refine ⟨?_, fun w' => ?_, fun ks t h => checkForKeywords_absent ks t h⟩
  · have h := hsome w
    rw [initializeKeywords_spec vocab w, if_neg hw] at h
    cases hfin : (ts.foldl CheckForKeywords (InitializeKeywords vocab)).Keywords w with
    | none => rfl
    | some n =>
      rw [hfin] at h
      simp at h
  · rw [hsome w', initializeKeywords_spec vocab w']
    by_cases hww : w' ∈ vocab.map String.toLower
    · simp [hww]
    · simp [hww]

/-- C7 witness: with an empty vocabulary, the observed token `"went"`
never gains an entry. -/
theorem C7_witness :
    "went" ∉ (([] : List String).map String.toLower) ∧
    ((["went", "GO"].foldl CheckForKeywords
      (InitializeKeywords [])).Keywords "went" = none) := by
  refine ⟨by simp, (C7_keywords [] ["went", "GO"] "went" (by simp)).1⟩

/-- C8: on every state reachable by `AddToMedian` calls (the frequency
counters sum to `size`), the `returnMedian` walk always reaches a
`return`: the embedded out-of-range marker — the only way the Go loop
could fail to return, by overrunning the array — never occurs. -/
theorem C8_termination (ms : MedianStorageArray)
    (hsum : cumul ms.frequencyArray BOUND = ms.size) :
    returnMedian ms ≠ Except.error MedianError.indexOutOfRange :=
  returnMedian_consistent_no_panic ms hsum

/-- C8 witness: the empty state. -/
theorem C8_witness :
    cumul initialMedian.frequencyArray BOUND = initialMedian.size ∧
    returnMedian initialMedian ≠ Except.error MedianError.indexOutOfRange := by
  have h : cumul initialMedian.frequencyArray BOUND = initialMedian.size := by
    simp [cumul, initialMedian]
  exact ⟨h, C8_termination initialMedian h⟩

/-- C10: `AddValue` accepts every integer — it never fails and always
increments the observation count — while the median estimator rejects the
same value when it is `≥ 4000` and keeps its state unchanged, so the two
statistics can describe different multisets of lengths. -/
theorem C10_AddValue_unbounded (svc : StdVarianceCalculator)
    (ms : MedianStorageArray) (v : Nat) (hv : 4000 ≤ v) :
    (∀ x : Int, (AddValue svc x).iterations = svc.iterations + 1) ∧
    AddToMedian ms v = Except.error MedianError.indexTooLarge ∧
    stepMedian ms v = ms := by
  have hB : BOUND ≤ v := by simpa [BOUND] using hv
  exact ⟨fun x => rfl, by simp [AddToMedian, hB], by simp [stepMedian, AddToMedian, hB]⟩

/-- C10 witness: the value `4000` itself. -/
theorem C10_witness :
    (4000 : Nat) ≤ 4000 ∧
    (AddValue ⟨0, 0, 0⟩ 4000).iterations = 0 + 1 ∧
    AddToMedian initialMedian 4000 = Except.error MedianError.indexTooLarge := by
  refine ⟨le_rfl, ?_,
    (C10_AddValue_unbounded ⟨0, 0, 0⟩ initialMedian 4000 le_rfl).2.1⟩
  have h := (C10_AddValue_unbounded ⟨0, 0, 0⟩ initialMedian 4000 le_rfl).1 4000
  simpa using h

end TextProc
